import Mathlib

/-!
Verification of the dependency-resolution core of `gimpact` (`deps/graph.go`).

The Go source is shallowly embedded as executable Lean definitions:

* `semver.Version` values (external library `blang/semver`) are modelled by
  `SemVer` on the major/minor/patch fragment the resolver exercises;
  `*semver.Version` pointers are modelled by `VPtr`, a version value paired
  with an allocation address, so that Go pointer identity (`addr`) and
  semantic value equality (`ver`) stay distinguishable.
* Go maps (`Configuration`, `Available`, and the intermediate maps inside
  `Versions`/`Dependencies`/`findFirst`) are modelled by association lists
  with unique keys; Go's unspecified map-iteration order is canonicalized to
  insertion order.
* `VersionList` lives in a source file of the repository that is not part of
  the provided sources (only `graph.go` uses it), so its operations are
  modelled from the specification, §4.1; each such definition is marked
  `Modelled from the spec:`.
* `findFirst` takes an explicit fuel argument (Go recursion depth); `none`
  means the fuel ran out.  `Resolve` supplies a fuel that is proved
  sufficient, so fuel exhaustion is unreachable from the public surface.
* The `log.Printf` calls guarded by `verbose` are an observability side
  channel that does not influence any returned value; they are omitted.
-/

/-- SemVer models the external `semver.Version` value on the
major/minor/patch fragment used by the resolver (pre-release and build
metadata are never exercised by `graph.go`). -/
structure SemVer where
  major : Nat
  minor : Nat
  patch : Nat
deriving DecidableEq, Repr

/-- VPtr models a Go `*semver.Version`: `addr` is the allocation address
(pointer identity), `ver` the pointed-to value.  `semver.Compare(a, b) == 0`
corresponds to `a.ver = b.ver`, lexicographic order on the triple. -/
structure VPtr where
  addr : Nat
  ver : SemVer
deriving DecidableEq, Repr

/-- SemVer.le is semantic-version precedence on the modelled fragment:
lexicographic comparison of major, then minor, then patch.  It mirrors
`semver.Compare` returning a non-positive value. -/
def SemVer.le (a b : SemVer) : Prop :=
  a.major < b.major ∨
    (a.major = b.major ∧
      (a.minor < b.minor ∨ (a.minor = b.minor ∧ a.patch ≤ b.patch)))

instance : DecidableRel SemVer.le := by
  intro a b
  unfold SemVer.le
  infer_instance

/-- vdesc is the newest-first ordering on version pointers used by
`ReverseSort`: `vdesc p q` holds when `p` is at least as new as `q`. -/
def vdesc (p q : VPtr) : Prop := SemVer.le q.ver p.ver

instance : DecidableRel vdesc := by
  intro p q
  unfold vdesc
  infer_instance

instance : IsTotal VPtr vdesc := by
  constructor
  intro p q
  unfold vdesc SemVer.le
  omega

instance : IsTrans VPtr vdesc := by
  constructor
  intro p q r
  unfold vdesc SemVer.le
  omega

/-- LibraryName mirrors `type LibraryName string`. -/
abbrev LibraryName := String

/-- VersionList is the collection type of the repository's version-set file,
which is not among the provided sources.  Modelled from the spec: §2/§4.1,
"an ordered, duplicate-free collection of semantic versions".  Elements are
version pointers, the set algebra works by semantic value. -/
abbrev VersionList := List VPtr

/-- NewVersionList mirrors the constructor used by `graph.go`.  Modelled from
the spec: §4.1, "construct empty". -/
def NewVersionList : VersionList := []

/-- VersionList.Contains is the membership test.  Modelled from the spec:
§4.1, "containment test (value equality)". -/
def VersionList.Contains (vl : VersionList) (v : VPtr) : Bool :=
  List.any vl fun p => p.ver == v.ver

/-- VersionList.Add appends a version.  Modelled from the spec: §4.1, "add a
version (duplicates by value are not re-added)". -/
def VersionList.Add (vl : VersionList) (v : VPtr) : VersionList :=
  if VersionList.Contains vl v then vl else vl ++ [v]

/-- VersionList.Len mirrors `vl.Len()`.  Modelled from the spec: §4.1,
"length". -/
def VersionList.Len (vl : VersionList) : Nat := List.length vl

/-- VersionList.Intersection keeps the versions of `a` present in `b` by
value.  Modelled from the spec: §4.1, "intersection with another set,
producing a new set containing only versions present in both by value
equality". -/
def VersionList.Intersection (a b : VersionList) : VersionList :=
  List.filter (fun p => VersionList.Contains b p) a

/-- VersionList.ReverseSort sorts newest-first.  Modelled from the spec:
§4.1, "descending sort (newest-first)". -/
def VersionList.ReverseSort (vl : VersionList) : VersionList :=
  List.insertionSort vdesc vl

/-- alookup is Go map read `m[k]` for the association-list model. -/
def alookup {β : Type} (k : LibraryName) : List (LibraryName × β) → Option β
  | [] => none
  | (k', v) :: t => if k' = k then some v else alookup k t

/-- ainsert is Go map write `m[k] = v`: update the binding in place when the
key is present, append it otherwise. -/
def ainsert {β : Type} (k : LibraryName) (v : β) :
    List (LibraryName × β) → List (LibraryName × β)
  | [] => [(k, v)]
  | (k', v') :: t => if k' = k then (k, v) :: t else (k', v') :: ainsert k v t

/-- aerase is Go `delete(m, k)`. -/
def aerase {β : Type} (k : LibraryName) (m : List (LibraryName × β)) :
    List (LibraryName × β) :=
  List.filter (fun kv => kv.1 != k) m

/-- akeys lists the keys of an association-list map. -/
def akeys {β : Type} (m : List (LibraryName × β)) : List LibraryName :=
  List.map Prod.fst m

/-- Configuration mirrors `type Configuration map[LibraryName]*semver.Version`:
a chosen exact version per library. -/
abbrev Configuration := List (LibraryName × VPtr)

/-- Available mirrors `type Available map[LibraryName]*VersionList`: the
remaining possible versions per library. -/
abbrev Available := List (LibraryName × VersionList)

/-- Configuration.Clone mirrors `func (conf Configuration) Clone()`: it copies
every binding into a fresh map; in the pure model the copy has the same
contents as the original. -/
def Configuration.Clone (conf : Configuration) : Configuration := conf

/-- Available.Clone mirrors `func (a Available) Clone()` (shallow copy of the
bindings). -/
def Available.Clone (a : Available) : Available := a

/-- Available.Refine mirrors `func (a Available) Refine(subset Available)`:
it iterates over the receiver `a`; a key absent from `subset` passes through,
a key present in both is intersected.  Keys present only in `subset` are not
visited by the loop and are absent from the result. -/
def Available.Refine (a subset : Available) : Available :=
  List.map (fun kv =>
    match alookup kv.1 subset with
    | none => kv
    | some v2 => (kv.1, VersionList.Intersection kv.2 v2)) a

/-- Available.Empty mirrors `func (a Available) Empty()`: the keys whose
version set has length zero. -/
def Available.Empty (a : Available) : List LibraryName :=
  List.map Prod.fst (List.filter (fun kv => VersionList.Len kv.2 == 0) a)

/-- uniqueLibrary mirrors the unexported `uniqueLibrary` struct: a name plus
a version pointer. -/
structure uniqueLibrary where
  name : LibraryName
  ver : VPtr
deriving DecidableEq, Repr

/-- dependency mirrors the `dependency` struct: one directed edge, `library`
depends on `dependsOn`. -/
structure dependency where
  library : uniqueLibrary
  dependsOn : uniqueLibrary
deriving DecidableEq, Repr

/-- LibraryIndex mirrors `type LibraryIndex struct { libraries []dependency }`. -/
structure LibraryIndex where
  libraries : List dependency
deriving DecidableEq, Repr

/-- MakeLibraryIndex mirrors `func MakeLibraryIndex()`. -/
def MakeLibraryIndex : LibraryIndex := ⟨[]⟩

/-- LibraryIndex.AddDependency mirrors the `AddDependency` method: append one
edge to the slice. -/
def LibraryIndex.AddDependency (index : LibraryIndex) (lib : LibraryName)
    (libver : VPtr) (deplib : LibraryName) (depver : VPtr) : LibraryIndex :=
  ⟨index.libraries ++ [⟨⟨lib, libver⟩, ⟨deplib, depver⟩⟩]⟩

/-- LibraryIndex.Versions mirrors the `Versions` method: collect the distinct
source pointers of edges whose source name matches (the Go set `present` is
keyed by pointer), pour them into a `VersionList` via `Add`, and sort
newest-first. -/
def LibraryIndex.Versions (index : LibraryIndex) (lib : LibraryName) :
    VersionList :=
  VersionList.ReverseSort
    (List.foldl VersionList.Add NewVersionList
      (List.dedup (List.map (fun d => d.library.ver)
        (List.filter (fun d => d.library.name == lib) index.libraries))))

/-- depStep is the loop body of the `Dependencies` method: for an edge whose
source name matches and whose source version is value-equal
(`ver.Compare(dep.library.ver) == 0`), add the target version to the version
set grouped under the target name, creating the set on first sight exactly as
the Go code inserts a fresh `NewVersionList`. -/
def depStep (lib : LibraryName) (ver : VPtr) (depvers : Available)
    (d : dependency) : Available :=
  if d.library.name == lib && d.library.ver.ver == ver.ver then
    match alookup d.dependsOn.name depvers with
    | none =>
        ainsert d.dependsOn.name
          (VersionList.Add NewVersionList d.dependsOn.ver) depvers
    | some dver =>
        ainsert d.dependsOn.name
          (VersionList.Add dver d.dependsOn.ver) depvers
  else depvers

/-- LibraryIndex.Dependencies folds `depStep` over the edge slice, exactly
the loop of the Go method. -/
def LibraryIndex.Dependencies (index : LibraryIndex) (lib : LibraryName)
    (ver : VPtr) : Available :=
  List.foldl (depStep lib ver) [] index.libraries

/-- fmtNames renders a `[]LibraryName` slice the way `fmt.Errorf`'s `%v` verb
does: space-separated names between brackets. -/
def fmtNames (names : List LibraryName) : String :=
  "[" ++ String.intercalate " " names ++ "]"

/-- candidates mirrors lines 186-190 of `findFirst`: the constrained version
set from `avail` when present, otherwise every version known to the index. -/
def candidates (index : LibraryIndex) (avail : Available)
    (lib : LibraryName) : VersionList :=
  match alookup lib avail with
  | some vers => vers
  | none => LibraryIndex.Versions index lib

/-- conflictOf mirrors lines 207-217 of `findFirst`: the first dependency in
`depvers` whose version set does not contain the version already chosen for
it in `mapped`, if any. -/
def conflictOf (mapped : Configuration) (depvers : Available) :
    Option (LibraryName × VersionList) :=
  List.find? (fun kv =>
    match alookup kv.1 mapped with
    | some choice => !(VersionList.Contains kv.2 choice)
    | none => false) depvers

/-- pruneMapped mirrors lines 222-224 of `findFirst`: delete from `depvers`
every key already present in `mapped`. -/
def pruneMapped (mapped : Configuration) (depvers : Available) : Available :=
  List.filter (fun kv => (alookup kv.1 mapped).isNone) depvers

/-- newLibs mirrors lines 228-238 of `findFirst`: the keys of `depvers` that
are not already scheduled in `rest` (the inner scan sets `found`). -/
def newLibs (rest : List LibraryName) (depvers : Available) :
    List LibraryName :=
  List.filter (fun n1 => !(List.any rest fun n2 => n1 == n2))
    (List.map Prod.fst depvers)

/-- indexNames lists every library name occurring in the index, sources and
targets; used only to size the fuel handed to `findFirst`. -/
def indexNames (index : LibraryIndex) : List LibraryName :=
  List.map (fun d => d.library.name) index.libraries ++
    List.map (fun d => d.dependsOn.name) index.libraries

/-- fuelBound is a recursion-depth budget proved sufficient for `findFirst`:
one step per worklist entry plus two per distinct library name in play. -/
def fuelBound (index : LibraryIndex) (rest : List LibraryName) : Nat :=
  rest.length + 2 * (List.dedup (indexNames index ++ rest)).length + 1

/-- findFirst mirrors `func (index LibraryIndex) findFirst`.  The `verbose`
logging parameter is dropped (it only prints).  `fuel` bounds the recursion
depth; `none` reports fuel exhaustion and is proved unreachable for the fuel
`Resolve` supplies.  Note that every path of the Go `for ... range *vers`
loop body ends in `return`, so only the first candidate version is ever
examined and the code after the loop runs exactly when `vers` is empty; the
embedding matches on the head of the candidate list accordingly. -/
def findFirst (index : LibraryIndex) (fuel : Nat) (mapped : Configuration)
    (avail : Available) (rest : List LibraryName) :
    Option (Except String Configuration) :=
  match fuel with
  | 0 => none
  | Nat.succ fuel =>
    match rest with
    | [] => some (Except.ok mapped)
    | lib :: rest =>
      match candidates index avail lib with
      | [] =>
          some (Except.error ("No compatible versions of " ++ lib ++ " found"))
      | ver :: _ =>
        let config := Configuration.Clone mapped
        let depvers := LibraryIndex.Dependencies index lib ver
        match conflictOf mapped depvers with
        | some dvl =>
            some (Except.error ("No compatible version of " ++ dvl.1))
        | none =>
          let depvers2 := pruneMapped mapped depvers
          let newlibs := newLibs rest depvers2
          let intersection := aerase lib (Available.Refine avail depvers2)
          match Available.Empty intersection with
          | [] =>
              findFirst index fuel (ainsert lib ver config) intersection
                (newlibs ++ rest)
          | starved =>
              some (Except.error
                ("No compatible versions of: " ++ fmtNames starved))

/-- LibraryIndex.Resolve mirrors the `Resolve` method: run `findFirst` with
the zero-value (empty) configuration and a fresh empty constraint store.  The
fuel is a budget proved sufficient, so `Resolve` never returns `none`. -/
def LibraryIndex.Resolve (index : LibraryIndex)
    (libraries : List LibraryName) : Option (Except String Configuration) :=
  findFirst index (fuelBound index libraries) [] [] libraries

/-- mkPtr builds a version pointer for concrete examples: allocation address
plus major/minor/patch. -/
def mkPtr (n a b c : Nat) : VPtr := ⟨n, ⟨a, b, c⟩⟩

/-- specUnionW is the spec-side set of permitted versions (§3): the union of
the `w` values over all edges from `(L@v)` to library `D`, collected directly
from the spec's words for comparison against the code's behaviour. -/
def specUnionW (index : LibraryIndex) (L : LibraryName) (vv : SemVer)
    (D : LibraryName) : List SemVer :=
  List.map (fun e => e.dependsOn.ver.ver)
    (List.filter (fun e =>
      e.library.name == L && e.library.ver.ver == vv && e.dependsOn.name == D)
      index.libraries)

/-- specCompleteInvariant is the completeness invariant of §3, written from
the spec's words: for every edge `(L@v) -> (D@w)` where the configuration
assigns `v` to `L` and assigns some version to `D`, the version assigned to
`D` lies in the union of the `w` values over all edges from `(L@v)` to `D`. -/
def specCompleteInvariant (index : LibraryIndex) (conf : Configuration) :
    Bool :=
  List.all index.libraries fun e =>
    match alookup e.library.name conf, alookup e.dependsOn.name conf with
    | some chosen, some w =>
      if chosen.ver == e.library.ver.ver then
        List.contains
          (specUnionW index e.library.name e.library.ver.ver e.dependsOn.name)
          w.ver
      else true
    | _, _ => true

/-- exIdxC1 has edges `A@1.0.0 -> B@1.0.0`, `B@2.0.0 -> A@1.0.0`,
`B@1.0.0 -> A@1.0.0` (all pointer addresses distinct). -/
def exIdxC1 : LibraryIndex :=
  ⟨[⟨⟨"A", mkPtr 0 1 0 0⟩, ⟨"B", mkPtr 1 1 0 0⟩⟩,
    ⟨⟨"B", mkPtr 2 2 0 0⟩, ⟨"A", mkPtr 3 1 0 0⟩⟩,
    ⟨⟨"B", mkPtr 4 1 0 0⟩, ⟨"A", mkPtr 5 1 0 0⟩⟩]⟩

/-- exIdxC2 has edges `A@1.0.0 -> C@1.0.0`, `B@2.0.0 -> C@2.0.0`,
`B@1.0.0 -> C@1.0.0`, `C@1.0.0 -> A@1.0.0`. -/
def exIdxC2 : LibraryIndex :=
  ⟨[⟨⟨"A", mkPtr 0 1 0 0⟩, ⟨"C", mkPtr 1 1 0 0⟩⟩,
    ⟨⟨"B", mkPtr 2 2 0 0⟩, ⟨"C", mkPtr 3 2 0 0⟩⟩,
    ⟨⟨"B", mkPtr 4 1 0 0⟩, ⟨"C", mkPtr 5 1 0 0⟩⟩,
    ⟨⟨"C", mkPtr 6 1 0 0⟩, ⟨"A", mkPtr 7 1 0 0⟩⟩]⟩

/-- exIdxC7 knows `X` only as an edge target, at versions 1.0.0 and 2.0.0:
edges `W@1.0.0 -> X@1.0.0` and `W@1.0.0 -> X@2.0.0`. -/
def exIdxC7 : LibraryIndex :=
  ⟨[⟨⟨"W", mkPtr 0 1 0 0⟩, ⟨"X", mkPtr 1 1 0 0⟩⟩,
    ⟨⟨"W", mkPtr 0 1 0 0⟩, ⟨"X", mkPtr 2 2 0 0⟩⟩]⟩

/-- keysF is the finite set of keys of an association-list map; it is used
only by the termination argument for `findFirst`. -/
def keysF {β : Type} (m : List (LibraryName × β)) : Finset LibraryName :=
  (akeys m).toFinset

/-- namesF is the finite set of library names occurring in the index. -/
def namesF (index : LibraryIndex) : Finset LibraryName :=
  (indexNames index).toFinset

/-- phi is the termination measure of `findFirst`: the worklist length, plus
the number of names in play that are not yet assigned, plus once more the
number of such names that are not even scheduled.  Every recursive call of
`findFirst` strictly decreases it. -/
def phi (index : LibraryIndex) (mapped : Configuration)
    (rest : List LibraryName) : Nat :=
  rest.length + ((namesF index ∪ rest.toFinset) \ keysF mapped).card +
    (namesF index \ (keysF mapped ∪ rest.toFinset)).card

/-- HObj is a heap object of the kinds `findFirst` touches through pointers:
a `Configuration` map, an `Available` map whose values are `*VersionList`
references, or a `VersionList`.  `*semver.Version` values are immutable in
`graph.go` and stay pure (`VPtr`). -/
inductive HObj where
  | hconf (c : List (LibraryName × VPtr))
  | havail (a : List (LibraryName × Nat))
  | hvlist (l : List VPtr)
deriving DecidableEq, Repr

/-- Heap is an allocation-ordered store for the heap embedding of
`findFirst`: addresses below `next` are the live objects. -/
structure Heap where
  mem : Nat → Option HObj
  next : Nat

/-- Heap.alloc places a fresh object at address `next`. -/
def Heap.alloc (h : Heap) (o : HObj) : Heap × Nat :=
  (⟨fun r => if r = h.next then some o else h.mem r, h.next + 1⟩, h.next)

/-- Heap.write mutates the object at an existing address. -/
def Heap.write (h : Heap) (r : Nat) (o : HObj) : Heap :=
  ⟨fun r2 => if r2 = r then some o else h.mem r2, h.next⟩

/-- Heap.readConf dereferences a `Configuration` pointer (a nil or foreign
reference reads as the empty map, as a nil Go map does). -/
def Heap.readConf (h : Heap) (r : Nat) : List (LibraryName × VPtr) :=
  match h.mem r with
  | some (HObj.hconf c) => c
  | _ => []

/-- Heap.readAvail dereferences an `Available` pointer. -/
def Heap.readAvail (h : Heap) (r : Nat) : List (LibraryName × Nat) :=
  match h.mem r with
  | some (HObj.havail a) => a
  | _ => []

/-- Heap.readVlist dereferences a `*VersionList`. -/
def Heap.readVlist (h : Heap) (r : Nat) : List VPtr :=
  match h.mem r with
  | some (HObj.hvlist l) => l
  | _ => []

/-- NewVersionListH allocates a fresh empty `VersionList`. -/
def NewVersionListH (h : Heap) : Heap × Nat :=
  h.alloc (HObj.hvlist [])

/-- AddH is `vl.Add(v)` through a pointer: an in-place update of the pointed
list. -/
def AddH (h : Heap) (r : Nat) (v : VPtr) : Heap :=
  h.write r (HObj.hvlist (VersionList.Add (h.readVlist r) v))

/-- IntersectionH is `(*v).Intersection(*v2)`: it reads both operands and
allocates the fresh result set, leaving the operands untouched (Modelled from
the spec: §4.1, intersection "produc[es] a new set"). -/
def IntersectionH (h : Heap) (r1 r2 : Nat) : Heap × Nat :=
  h.alloc (HObj.hvlist
    (VersionList.Intersection (h.readVlist r1) (h.readVlist r2)))

/-- CloneConfH is `mapped.Clone()`: allocate a fresh map with the same
bindings. -/
def CloneConfH (h : Heap) (r : Nat) : Heap × Nat :=
  h.alloc (HObj.hconf (h.readConf r))

/-- VersionsH is the heap version of `LibraryIndex.Versions`: a fresh list is
allocated, filled through `Add`, and sorted in place. -/
def VersionsH (h : Heap) (index : LibraryIndex) (lib : LibraryName) :
    Heap × Nat :=
  let present := List.dedup (List.map (fun d => d.library.ver)
    (List.filter (fun d => d.library.name == lib) index.libraries))
  let hv := NewVersionListH h
  let h2 := List.foldl (fun hh v => AddH hh hv.2 v) hv.1 present
  (h2.write hv.2 (HObj.hvlist (VersionList.ReverseSort (h2.readVlist hv.2))),
    hv.2)

/-- depStepH is the loop body of the heap version of `Dependencies`: on a
matching edge, `Add` through the existing list pointer, or allocate a fresh
list, link it into the map at `dr`, and `Add` through it. -/
def depStepH (lib : LibraryName) (ver : VPtr) (dr : Nat) (h : Heap)
    (d : dependency) : Heap :=
  if d.library.name == lib && d.library.ver.ver == ver.ver then
    match alookup d.dependsOn.name (h.readAvail dr) with
    | some vr => AddH h vr d.dependsOn.ver
    | none =>
        let hv := NewVersionListH h
        let h2 := hv.1.write dr
          (HObj.havail (ainsert d.dependsOn.name hv.2 (hv.1.readAvail dr)))
        AddH h2 hv.2 d.dependsOn.ver
  else h

/-- DependenciesH is the heap version of `LibraryIndex.Dependencies`: it
allocates the `depvers` map and folds `depStepH` over the edges. -/
def DependenciesH (h : Heap) (index : LibraryIndex) (lib : LibraryName)
    (ver : VPtr) : Heap × Nat :=
  let hd := h.alloc (HObj.havail [])
  (List.foldl (depStepH lib ver hd.2) hd.1 index.libraries, hd.2)

/-- RefineH is the heap version of `Available.Refine`: allocate `ret`, then
for every binding of the receiver either share the existing list pointer or
allocate the intersection; keys only in `subset` are never visited. -/
def RefineH (h : Heap) (ar sr : Nat) : Heap × Nat :=
  let hr := h.alloc (HObj.havail [])
  (List.foldl (fun hh kv =>
      match alookup kv.1 (hh.readAvail sr) with
      | none =>
          hh.write hr.2 (HObj.havail (ainsert kv.1 kv.2 (hh.readAvail hr.2)))
      | some vr2 =>
          let hi := IntersectionH hh kv.2 vr2
          hi.1.write hr.2
            (HObj.havail (ainsert kv.1 hi.2 (hi.1.readAvail hr.2))))
    hr.1 (h.readAvail ar), hr.2)

/-- EmptyH is the heap version of `Available.Empty`: collect the keys whose
pointed list has length zero. -/
def EmptyH (h : Heap) (ar : Nat) : List LibraryName :=
  List.map Prod.fst (List.filter
    (fun kv => (h.readVlist kv.2).length == 0) (h.readAvail ar))

/-- findFirstH is the heap embedding of `findFirst`: `mr` and `ar` are the
caller's `mapped` and `avail` pointers, the result configuration is returned
as a pointer.  Every Go map or list mutation is a `Heap.write`; the writes
target only objects allocated during the call (`config`, `depvers`, the
fresh `VersionList`s, `intersection`), which is what the frame theorem for
claim C9 proves. -/
def findFirstH (index : LibraryIndex) (fuel : Nat) (h : Heap) (mr ar : Nat)
    (rest : List LibraryName) : Heap × Option (Except String Nat) :=
  match fuel with
  | 0 => (h, none)
  | Nat.succ fuel =>
    match rest with
    | [] => (h, some (Except.ok mr))
    | lib :: rest =>
      let hv :=
        match alookup lib (h.readAvail ar) with
        | some vr => (h, vr)
        | none => VersionsH h index lib
      match hv.1.readVlist hv.2 with
      | [] =>
          (hv.1, some (Except.error
            ("No compatible versions of " ++ lib ++ " found")))
      | ver :: _ =>
        let hc := CloneConfH hv.1 mr
        let hd := DependenciesH hc.1 index lib ver
        match List.find? (fun kv =>
            match alookup kv.1 (hd.1.readConf mr) with
            | some choice =>
                !(VersionList.Contains (hd.1.readVlist kv.2) choice)
            | none => false) (hd.1.readAvail hd.2) with
        | some kv =>
            (hd.1, some (Except.error ("No compatible version of " ++ kv.1)))
        | none =>
          let h4 := hd.1.write hd.2 (HObj.havail (List.filter
            (fun kv => (alookup kv.1 (hd.1.readConf mr)).isNone)
            (hd.1.readAvail hd.2)))
          let newlibs := List.filter
            (fun n1 => !(List.any rest fun n2 => n1 == n2))
            (List.map Prod.fst (h4.readAvail hd.2))
          let hi := RefineH h4 ar hd.2
          let h6 := hi.1.write hi.2
            (HObj.havail (aerase lib (hi.1.readAvail hi.2)))
          match EmptyH h6 hi.2 with
          | [] =>
              let h7 := h6.write hc.2
                (HObj.hconf (ainsert lib ver (h6.readConf hc.2)))
              findFirstH index fuel h7 hc.2 hi.2 (newlibs ++ rest)
          | starved =>
              (h6, some (Except.error
                ("No compatible versions of: " ++ fmtNames starved)))

/-- exHeapC9 is a two-object heap: the caller's empty configuration at
address 0 and empty constraint store at address 1. -/
def exHeapC9 : Heap :=
  ⟨fun r => if r = 0 then some (HObj.hconf [])
    else if r = 1 then some (HObj.havail []) else none, 2⟩

/-- FrameAbove `n h h2` states that the heap evolved from `h` to `h2`
without modifying any address below `n` and without shrinking the allocation
frontier. -/
def FrameAbove (n : Nat) (h h2 : Heap) : Prop :=
  n ≤ h2.next ∧ ∀ r, r < n → h2.mem r = h.mem r

-- ===================== theorems =====================

/-- Claim C1 (status: code_bug).  On the index with edges
`A@1.0.0 -> B@1.0.0`, `B@2.0.0 -> A@1.0.0`, `B@1.0.0 -> A@1.0.0`,
`Resolve(A)` returns successfully with `{A: 1.0.0, B: 2.0.0}`, yet the edge
`A@1.0.0 -> B@1.0.0` demands `B ∈ {1.0.0}`: the returned configuration
violates the completeness invariant the claim states for every successful
resolution.  The constraint `B -> {1.0.0}` is discarded because
`Available.Refine` drops keys present only in its argument. -/
theorem claim_C1 :
    LibraryIndex.Resolve exIdxC1 ["A"] =
      some (Except.ok [("A", mkPtr 0 1 0 0), ("B", mkPtr 2 2 0 0)]) ∧
    specCompleteInvariant exIdxC1
      [("A", mkPtr 0 1 0 0), ("B", mkPtr 2 2 0 0)] = false := by
  exact ⟨rfl, rfl⟩

/-- Claim C2 (status: code_bug).  On the index with edges
`A@1.0.0 -> C@1.0.0`, `B@2.0.0 -> C@2.0.0`, `B@1.0.0 -> C@1.0.0`,
`C@1.0.0 -> A@1.0.0`, the first candidate `B@2.0.0` conflicts with the
already-chosen `C@1.0.0` and `findFirst` returns that error directly instead
of trying the next candidate `B@1.0.0` — which does succeed, as the second
conjunct shows by running `findFirst` with `B` constrained to `{1.0.0}`. -/
theorem claim_C2 :
    LibraryIndex.Resolve exIdxC2 ["A", "B"] =
      some (Except.error "No compatible version of C") ∧
    findFirst exIdxC2 20 [] [("B", [mkPtr 4 1 0 0])] ["A", "B"] =
      some (Except.ok
        [("A", mkPtr 0 1 0 0), ("C", mkPtr 6 1 0 0), ("B", mkPtr 4 1 0 0)]) := by
  exact ⟨rfl, rfl⟩

/-- Claim C3 (status: code_bug).  `Available.Refine` only iterates over the
receiver, so a library present only in the incoming constraint map is dropped
from the result: refining the empty store with `{B -> {1.0.0}}` yields the
empty store rather than retaining `B`, contradicting the stated contract that
names from either side are kept. -/
theorem claim_C3 :
    Available.Refine [] [("B", [mkPtr 0 1 0 0])] = [] ∧
    Available.Refine [("A", [mkPtr 9 3 0 0])] [("B", [mkPtr 0 1 0 0])] =
      [("A", [mkPtr 9 3 0 0])] := by
  exact ⟨rfl, rfl⟩

/-- Claim C6 (status: code_bug).  With an empty index the library `A` has
zero known versions and `Resolve(A)` does fail, but the failure is the plain
`fmt.Errorf` string also used for candidate exhaustion, not a tagged
`NoVersionsAvailable` value carrying the name. -/
theorem claim_C6 :
    LibraryIndex.Resolve ⟨[]⟩ ["A"] =
      some (Except.error "No compatible versions of A found") := by
  exact rfl

/-- Claim C7, counterexample (status: corrected).  The graph knows `X` at
versions 1.0.0 and 2.0.0 only through edges targeting `X`; `X` is the source
of no edge.  The claim asserts `Resolve(X)` succeeds with `{X: 2.0.0}`, but
`Versions` collects only source versions, so the candidate list is empty and
`Resolve(X)` returns an error. -/
theorem claim_C7_cex :
    LibraryIndex.Resolve exIdxC7 ["X"] =
      some (Except.error "No compatible versions of X found") := by
  exact rfl

/-- Claim C10 (status: confirmed).  Resolving an empty list of libraries
succeeds immediately on any index: the zero-value configuration (nil map,
modelled as the empty association list) is returned with no error, and
cloning the empty configuration yields the empty configuration, so every
later operation on it is well-defined. -/
theorem claim_C10 :
    (∀ index : LibraryIndex,
      LibraryIndex.Resolve index [] =
        some (Except.ok ([] : Configuration))) ∧
    Configuration.Clone [] = ([] : Configuration) := by
  refine ⟨fun index => ?_, rfl⟩
  show findFirst index (fuelBound index []) [] [] [] = _
  have h : fuelBound index [] =
      Nat.succ (2 * (List.dedup (indexNames index ++ [])).length) := by
    simp [fuelBound]
  rw [h]
  rfl

-- Helper lemmas about the version-set algebra.

theorem Contains_iff (vl : VersionList) (v : VPtr) :
    VersionList.Contains vl v = true ↔ ∃ p ∈ vl, p.ver = v.ver := by
  simp [VersionList.Contains]

theorem Add_val_mem (vl : VersionList) (v : VPtr) (w : SemVer) :
    (∃ p ∈ VersionList.Add vl v, p.ver = w) ↔
      (∃ p ∈ vl, p.ver = w) ∨ v.ver = w := by
  unfold VersionList.Add
  split
  · rename_i h
    rw [Contains_iff] at h
    obtain ⟨q, hq, hqv⟩ := h
    constructor
    · exact fun hx => Or.inl hx
    · rintro (hx | hx)
      · exact hx
      · exact ⟨q, hq, by rw [hqv, hx]⟩
  · simp only [List.mem_append, List.mem_singleton]
    constructor
    · rintro ⟨p, hp | rfl, hpv⟩
      · exact Or.inl ⟨p, hp, hpv⟩
      · exact Or.inr hpv
    · rintro (⟨p, hp, hpv⟩ | hv)
      · exact ⟨p, Or.inl hp, hpv⟩
      · exact ⟨v, Or.inr rfl, hv⟩

theorem Add_ver_nodup (vl : VersionList) (v : VPtr)
    (h : List.Nodup (List.map VPtr.ver vl)) :
    List.Nodup (List.map VPtr.ver (VersionList.Add vl v)) := by
  unfold VersionList.Add
  split
  · exact h
  · rename_i hc
    rw [List.map_append, List.nodup_append]
    refine ⟨h, by simp, ?_⟩
    intro x hx hx2
    simp only [List.map_cons, List.map_nil, List.mem_singleton] at hx2
    subst hx2
    obtain ⟨p, hp, hpv⟩ := List.mem_map.mp hx
    exact hc (Contains_iff vl v |>.mpr ⟨p, hp, hpv⟩)

theorem foldl_Add_val_mem :
    ∀ (l : List VPtr) (acc : VersionList) (w : SemVer),
      (∃ p ∈ List.foldl VersionList.Add acc l, p.ver = w) ↔
        (∃ p ∈ acc, p.ver = w) ∨ (∃ p ∈ l, p.ver = w)
  | [], acc, w => by simp
  | v :: t, acc, w => by
    simp only [List.foldl_cons]
    rw [foldl_Add_val_mem t, Add_val_mem]
    simp only [List.mem_cons, exists_eq_or_imp]
    exact or_assoc

theorem foldl_Add_ver_nodup :
    ∀ (l : List VPtr) (acc : VersionList),
      List.Nodup (List.map VPtr.ver acc) →
      List.Nodup (List.map VPtr.ver (List.foldl VersionList.Add acc l))
  | [], _, h => h
  | v :: t, acc, h => by
    simp only [List.foldl_cons]
    exact foldl_Add_ver_nodup t _ (Add_ver_nodup acc v h)

/-- Claim C4 (status: confirmed).  For every index and library name,
`Versions` returns exactly the source versions of the edges whose source
library matches: membership is by semantic value, each semantic value appears
at most once even when distinct pointer objects carry it (so deduplication is
by value, the pointer-keyed Go set only collapses identical pointers and
`VersionList.Add` removes the remaining value duplicates), and the output is
sorted newest-first. -/
theorem claim_C4 (index : LibraryIndex) (lib : LibraryName) :
    (∀ w : SemVer,
      (∃ p ∈ LibraryIndex.Versions index lib, p.ver = w) ↔
        ∃ e ∈ index.libraries, e.library.name = lib ∧ e.library.ver.ver = w) ∧
    List.Nodup (List.map VPtr.ver (LibraryIndex.Versions index lib)) ∧
    List.Sorted vdesc (LibraryIndex.Versions index lib) := by
  have hperm :
      List.Perm (LibraryIndex.Versions index lib)
        (List.foldl VersionList.Add NewVersionList
          (List.dedup (List.map (fun d => d.library.ver)
            (List.filter (fun d => d.library.name == lib) index.libraries)))) :=
    List.perm_insertionSort vdesc _
  refine ⟨?_, ?_, ?_⟩
  · intro w
    constructor
    · rintro ⟨p, hp, hpv⟩
      have hp' := hperm.mem_iff.mp hp
      have := (foldl_Add_val_mem _ _ w).mp ⟨p, hp', hpv⟩
      rcases this with h | h
      · simp [NewVersionList] at h
      · obtain ⟨q, hq, hqv⟩ := h
        rw [List.mem_dedup] at hq
        obtain ⟨e, he, rfl⟩ := List.mem_map.mp hq
        rw [List.mem_filter] at he
        exact ⟨e, he.1, by simpa using he.2, hqv⟩
    · rintro ⟨e, he, hname, hver⟩
      have hq : e.library.ver ∈
          List.dedup (List.map (fun d => d.library.ver)
            (List.filter (fun d => d.library.name == lib) index.libraries)) := by
        rw [List.mem_dedup]
        exact List.mem_map.mpr ⟨e, List.mem_filter.mpr ⟨he, by simp [hname]⟩, rfl⟩
      have := (foldl_Add_val_mem _ NewVersionList w).mpr
        (Or.inr ⟨e.library.ver, hq, hver⟩)
      obtain ⟨p, hp, hpv⟩ := this
      exact ⟨p, hperm.mem_iff.mpr hp, hpv⟩
  · have hbase : List.Nodup (List.map VPtr.ver
        (List.foldl VersionList.Add NewVersionList
          (List.dedup (List.map (fun d => d.library.ver)
            (List.filter (fun d => d.library.name == lib) index.libraries))))) :=
      foldl_Add_ver_nodup _ NewVersionList (by simp [NewVersionList])
    exact ((hperm.map VPtr.ver).nodup_iff).mpr hbase
  · exact List.sorted_insertionSort vdesc _

-- Helper lemmas about the association-list model of Go maps.

theorem alookup_ainsert_self {β : Type} (k : LibraryName) (v : β) :
    ∀ m : List (LibraryName × β), alookup k (ainsert k v m) = some v
  | [] => by simp [ainsert, alookup]
  | (k', v') :: t => by
    by_cases h : k' = k
    · subst h
      simp [ainsert, alookup]
    · simp only [ainsert, h, if_false, alookup, if_neg h]
      exact alookup_ainsert_self k v t

theorem alookup_ainsert_ne {β : Type} {k k' : LibraryName} (h : k' ≠ k)
    (v : β) : ∀ m : List (LibraryName × β),
      alookup k (ainsert k' v m) = alookup k m
  | [] => by simp [ainsert, alookup, h]
  | (k'', v'') :: t => by
    by_cases h2 : k'' = k'
    · subst h2
      simp [ainsert, alookup, h]
    · simp only [ainsert, h2, if_false, alookup]
      by_cases h3 : k'' = k
      · simp [h3]
      · simp only [h3, if_false]
        exact alookup_ainsert_ne h v t

theorem depStep_lookup (lib : LibraryName) (ver : VPtr) (acc : Available)
    (e : dependency) (d : LibraryName) (w : SemVer) :
    (∃ vl, alookup d (depStep lib ver acc e) = some vl ∧ ∃ p ∈ vl, p.ver = w) ↔
      ((∃ vl, alookup d acc = some vl ∧ ∃ p ∈ vl, p.ver = w) ∨
        (e.library.name = lib ∧ e.library.ver.ver = ver.ver ∧
          e.dependsOn.name = d ∧ e.dependsOn.ver.ver = w)) := by
  unfold depStep
  split
  · rename_i hguard
    rw [Bool.and_eq_true, beq_iff_eq, beq_iff_eq] at hguard
    obtain ⟨hn, hv⟩ := hguard
    by_cases hd : e.dependsOn.name = d
    · subst hd
      cases hacc : alookup e.dependsOn.name acc with
      | none =>
        dsimp only
        rw [alookup_ainsert_self]
        simp only [Option.some.injEq, exists_eq_left']
        rw [Add_val_mem]
        simp [NewVersionList, hacc, hn, hv]
      | some dver =>
        dsimp only
        rw [alookup_ainsert_self]
        simp only [Option.some.injEq, exists_eq_left']
        rw [Add_val_mem]
        simp [hacc, hn, hv]
    · cases hacc : alookup e.dependsOn.name acc with
      | none =>
        dsimp only
        rw [alookup_ainsert_ne hd]
        simp [hd]
      | some dver =>
        dsimp only
        rw [alookup_ainsert_ne hd]
        simp [hd]
  · rename_i hguard
    rw [Bool.and_eq_true] at hguard
    simp only [beq_iff_eq] at hguard
    constructor
    · exact fun h => Or.inl h
    · rintro (h | ⟨hn, hv, _⟩)
      · exact h
      · exact absurd ⟨hn, hv⟩ hguard

theorem Dependencies_go (lib : LibraryName) (ver : VPtr) (d : LibraryName)
    (w : SemVer) :
    ∀ (l : List dependency) (acc : Available),
      (∃ vl, alookup d (List.foldl (depStep lib ver) acc l) = some vl ∧
          ∃ p ∈ vl, p.ver = w) ↔
        ((∃ vl, alookup d acc = some vl ∧ ∃ p ∈ vl, p.ver = w) ∨
          ∃ e ∈ l, e.library.name = lib ∧ e.library.ver.ver = ver.ver ∧
            e.dependsOn.name = d ∧ e.dependsOn.ver.ver = w)
  | [], acc => by simp
  | e :: t, acc => by
    simp only [List.foldl_cons]
    rw [Dependencies_go lib ver d w t, depStep_lookup]
    simp only [List.mem_cons, exists_eq_or_imp]
    exact or_assoc

/-- Claim C5 (status: confirmed).  `Dependencies` considers exactly the edges
whose source name equals the library and whose source version is value-equal
to the given version (pointer identity does not matter), and binds each
target library name to the union over those edges of their target versions:
a version value is in the set bound to `d` exactly when some matching edge
targets `d` at that value.  The embedding of the method is a pure fold over
the edge slice, mutating nothing. -/
theorem claim_C5 (index : LibraryIndex) (lib : LibraryName) (ver : VPtr)
    (d : LibraryName) (w : SemVer) :
    (∃ vl, alookup d (LibraryIndex.Dependencies index lib ver) = some vl ∧
        ∃ p ∈ vl, p.ver = w) ↔
      ∃ e ∈ index.libraries, e.library.name = lib ∧
        e.library.ver.ver = ver.ver ∧ e.dependsOn.name = d ∧
        e.dependsOn.ver.ver = w := by
  unfold LibraryIndex.Dependencies
  rw [Dependencies_go]
  simp [alookup]

theorem Versions_eq_nil {index : LibraryIndex} {X : LibraryName}
    (h : ∀ e ∈ index.libraries, e.library.name ≠ X) :
    LibraryIndex.Versions index X = [] := by
  unfold LibraryIndex.Versions
  have hf : List.filter (fun d => d.library.name == X) index.libraries = [] := by
    rw [List.filter_eq_nil_iff]
    intro d hd
    simp [h d hd]
  rw [hf]
  rfl

theorem findFirst_no_candidates {index : LibraryIndex} {mapped : Configuration}
    {avail : Available} {lib : LibraryName} {rest : List LibraryName}
    {fuel : Nat} (hc : candidates index avail lib = []) :
    findFirst index (fuel + 1) mapped avail (lib :: rest) =
      some (Except.error ("No compatible versions of " ++ lib ++ " found")) := by
  simp only [findFirst, hc]

/-- Claim C7, amended (status: corrected).  The index only learns versions of
a library from edges in which that library is the source, so for a library
`X` that is the source of no edge — whatever versions of `X` appear as edge
targets — the candidate list of `X` is empty and `Resolve(X)` fails with the
error `No compatible versions of X found`, instead of succeeding with the
newest target version as the original claim states. -/
theorem claim_C7 (index : LibraryIndex) (X : LibraryName)
    (h : ∀ e ∈ index.libraries, e.library.name ≠ X) :
    LibraryIndex.Resolve index [X] =
      some (Except.error ("No compatible versions of " ++ X ++ " found")) := by
  have hr : LibraryIndex.Resolve index [X] =
      findFirst index
        ((1 + 2 * (List.dedup (indexNames index ++ [X])).length) + 1)
        [] [] [X] := rfl
  rw [hr]
  apply findFirst_no_candidates
  simp [candidates, alookup, Versions_eq_nil h]

/-- Claim C7 witness: the amended theorem applied to the concrete index whose
only edges are `W@1.0.0 -> X@1.0.0` and `W@1.0.0 -> X@2.0.0`. -/
theorem claim_C7_witness :
    (∀ e ∈ exIdxC7.libraries, e.library.name ≠ "X") ∧
    LibraryIndex.Resolve exIdxC7 ["X"] =
      some (Except.error ("No compatible versions of " ++ "X" ++ " found")) :=
  ⟨by decide, claim_C7 exIdxC7 "X" (by decide)⟩

-- Key-set lemmas feeding the termination argument.

theorem alookup_eq_none {β : Type} (k : LibraryName) :
    ∀ m : List (LibraryName × β), alookup k m = none ↔ k ∉ akeys m
  | [] => by simp [alookup, akeys]
  | (k', v') :: t => by
    by_cases h : k' = k
    · subst h
      simp [alookup, akeys]
    · simp only [alookup, h, if_false, akeys, List.map_cons, List.mem_cons]
      rw [alookup_eq_none k t]
      constructor
      · rintro hn (rfl | hmem)
        · exact h rfl
        · exact hn hmem
      · intro hn hmem
        exact hn (Or.inr hmem)

theorem akeys_cons {β : Type} (kv : LibraryName × β)
    (t : List (LibraryName × β)) : akeys (kv :: t) = kv.1 :: akeys t := rfl

theorem keysF_cons {β : Type} (kv : LibraryName × β)
    (t : List (LibraryName × β)) : keysF (kv :: t) = insert kv.1 (keysF t) := by
  simp [keysF, akeys_cons]

theorem mem_akeys_ainsert {β : Type} {x k : LibraryName} {v : β} :
    ∀ {m : List (LibraryName × β)},
      x ∈ akeys (ainsert k v m) → x = k ∨ x ∈ akeys m
  | [], h => by simpa [ainsert, akeys] using h
  | (k', v') :: t, h => by
    unfold ainsert at h
    by_cases h2 : k' = k
    · rw [if_pos h2] at h
      subst h2
      rw [akeys_cons, List.mem_cons] at h
      rcases h with h | h
      · exact Or.inl h
      · exact Or.inr (by rw [akeys_cons, List.mem_cons]; exact Or.inr h)
    · rw [if_neg h2] at h
      rw [akeys_cons, List.mem_cons] at h
      rcases h with h | h
      · exact Or.inr (by rw [akeys_cons, List.mem_cons]; exact Or.inl h)
      · rcases mem_akeys_ainsert h with h3 | h3
        · exact Or.inl h3
        · exact Or.inr (by rw [akeys_cons, List.mem_cons]; exact Or.inr h3)

theorem nodup_akeys_ainsert {β : Type} (k : LibraryName) (v : β) :
    ∀ {m : List (LibraryName × β)},
      (akeys m).Nodup → (akeys (ainsert k v m)).Nodup
  | [], _ => by simp [ainsert, akeys]
  | (k', v') :: t, h => by
    rw [akeys_cons, List.nodup_cons] at h
    unfold ainsert
    by_cases h2 : k' = k
    · rw [if_pos h2]
      subst h2
      rw [akeys_cons, List.nodup_cons]
      exact h
    · rw [if_neg h2]
      rw [akeys_cons, List.nodup_cons]
      refine ⟨?_, nodup_akeys_ainsert k v h.2⟩
      intro hmem
      rcases mem_akeys_ainsert hmem with h3 | h3
      · exact h2 h3
      · exact h.1 h3

theorem keysF_ainsert {β : Type} (k : LibraryName) (v : β) :
    ∀ m : List (LibraryName × β), keysF (ainsert k v m) = insert k (keysF m)
  | [] => by simp [keysF, ainsert, akeys]
  | (k', v') :: t => by
    unfold ainsert
    by_cases h : k' = k
    · rw [if_pos h]
      subst h
      rw [keysF_cons, keysF_cons, Finset.insert_idem]
    · rw [if_neg h]
      rw [keysF_cons, keysF_cons, keysF_ainsert k v t, Finset.Insert.comm]

theorem akeys_depStep_mem {lib : LibraryName} {ver : VPtr} {acc : Available}
    {e : dependency} {x : LibraryName}
    (h : x ∈ akeys (depStep lib ver acc e)) :
    x ∈ akeys acc ∨ x = e.dependsOn.name := by
  unfold depStep at h
  by_cases hg : (e.library.name == lib && e.library.ver.ver == ver.ver) = true
  · rw [if_pos hg] at h
    cases halook : alookup e.dependsOn.name acc with
    | none =>
      rw [halook] at h
      rcases mem_akeys_ainsert h with h2 | h2
      · exact Or.inr h2
      · exact Or.inl h2
    | some dver =>
      rw [halook] at h
      rcases mem_akeys_ainsert h with h2 | h2
      · exact Or.inr h2
      · exact Or.inl h2
  · rw [if_neg hg] at h
    exact Or.inl h

theorem nodup_akeys_depStep {lib : LibraryName} {ver : VPtr} {acc : Available}
    {e : dependency} (h : (akeys acc).Nodup) :
    (akeys (depStep lib ver acc e)).Nodup := by
  unfold depStep
  by_cases hg : (e.library.name == lib && e.library.ver.ver == ver.ver) = true
  · rw [if_pos hg]
    cases halook : alookup e.dependsOn.name acc with
    | none => exact nodup_akeys_ainsert _ _ h
    | some dver => exact nodup_akeys_ainsert _ _ h
  · rw [if_neg hg]
    exact h

theorem akeys_Dependencies_fold {lib : LibraryName} {ver : VPtr} :
    ∀ (l : List dependency) (acc : Available) (x : LibraryName),
      x ∈ akeys (List.foldl (depStep lib ver) acc l) →
      x ∈ akeys acc ∨ x ∈ List.map (fun d => d.dependsOn.name) l
  | [], _, _, h => Or.inl h
  | e :: t, acc, x, h => by
    simp only [List.foldl_cons] at h
    rcases akeys_Dependencies_fold t (depStep lib ver acc e) x h with h2 | h2
    · rcases akeys_depStep_mem h2 with h3 | h3
      · exact Or.inl h3
      · exact Or.inr (by simp [h3])
    · exact Or.inr (by simp only [List.map_cons, List.mem_cons]; exact Or.inr h2)

theorem nodup_akeys_Dependencies_fold {lib : LibraryName} {ver : VPtr} :
    ∀ (l : List dependency) (acc : Available),
      (akeys acc).Nodup → (akeys (List.foldl (depStep lib ver) acc l)).Nodup
  | [], _, h => h
  | e :: t, acc, h => by
    simp only [List.foldl_cons]
    exact nodup_akeys_Dependencies_fold t _ (nodup_akeys_depStep h)

theorem mem_akeys_Dependencies {index : LibraryIndex} {lib : LibraryName}
    {ver : VPtr} {x : LibraryName}
    (h : x ∈ akeys (LibraryIndex.Dependencies index lib ver)) :
    x ∈ indexNames index := by
  unfold LibraryIndex.Dependencies at h
  rcases akeys_Dependencies_fold index.libraries [] x h with h2 | h2
  · simp [akeys] at h2
  · exact List.mem_append.mpr (Or.inr h2)

theorem nodup_akeys_Dependencies (index : LibraryIndex) (lib : LibraryName)
    (ver : VPtr) :
    (akeys (LibraryIndex.Dependencies index lib ver)).Nodup :=
  nodup_akeys_Dependencies_fold index.libraries [] (by simp [akeys])

theorem akeys_pruneMapped_sublist (mapped : Configuration) (dv : Available) :
    List.Sublist (akeys (pruneMapped mapped dv)) (akeys dv) :=
  List.Sublist.map Prod.fst (List.filter_sublist dv)

theorem mem_akeys_pruneMapped {mapped : Configuration} {dv : Available}
    {n : LibraryName} (h : n ∈ akeys (pruneMapped mapped dv)) :
    alookup n mapped = none := by
  obtain ⟨kv, hkv, rfl⟩ := List.mem_map.mp h
  have := List.mem_filter.mp hkv
  exact Option.isNone_iff_eq_none.mp this.2

theorem newLibs_sublist (rest : List LibraryName) (dv : Available) :
    List.Sublist (newLibs rest dv) (akeys dv) :=
  List.filter_sublist _

theorem newLibs_nodup {rest : List LibraryName} {dv : Available}
    (h : (akeys dv).Nodup) : (newLibs rest dv).Nodup :=
  (newLibs_sublist rest dv).nodup h

theorem mem_newLibs {rest : List LibraryName} {dv : Available}
    {n : LibraryName} (h : n ∈ newLibs rest dv) :
    n ∈ akeys dv ∧ n ∉ rest := by
  unfold newLibs at h
  have h2 := List.mem_filter.mp h
  refine ⟨h2.1, fun hmem => ?_⟩
  have h3 := h2.2
  simp only [Bool.not_eq_true', List.any_eq_false, beq_iff_eq] at h3
  exact h3 n hmem rfl

theorem phi_decrease (index : LibraryIndex) (mapped : Configuration)
    (lib : LibraryName) (ver : VPtr) (rest : List LibraryName) :
    phi index (ainsert lib ver mapped)
        (newLibs rest (pruneMapped mapped
          (LibraryIndex.Dependencies index lib ver)) ++ rest)
      < phi index mapped (lib :: rest) := by
  simp only [phi, keysF_ainsert, List.toFinset_append, List.toFinset_cons,
    List.length_append, List.length_cons]
  set nl := newLibs rest (pruneMapped mapped
    (LibraryIndex.Dependencies index lib ver)) with hnl
  set N := namesF index with hN
  set A := keysF mapped with hA
  set W1 := rest.toFinset with hW1
  set S := nl.toFinset with hS
  have hnodup : nl.Nodup :=
    newLibs_nodup ((akeys_pruneMapped_sublist mapped _).nodup
      (nodup_akeys_Dependencies index lib ver))
  have hcard : S.card = nl.length := List.toFinset_card_of_nodup hnodup
  have hSN : ∀ n ∈ S, n ∈ N := by
    intro n hn
    rw [hS, List.mem_toFinset] at hn
    have h1 := (mem_newLibs hn).1
    have h2 := (akeys_pruneMapped_sublist mapped _).subset h1
    rw [hN]
    exact List.mem_toFinset.mpr (mem_akeys_Dependencies h2)
  have hSA : ∀ n ∈ S, n ∉ A := by
    intro n hn hmemA
    rw [hS, List.mem_toFinset] at hn
    have h2 := mem_akeys_pruneMapped (mem_newLibs hn).1
    rw [alookup_eq_none] at h2
    rw [hA] at hmemA
    exact h2 (List.mem_toFinset.mp hmemA)
  have hSW : ∀ n ∈ S, n ∉ W1 := by
    intro n hn hmemW
    rw [hS, List.mem_toFinset] at hn
    rw [hW1] at hmemW
    exact (mem_newLibs hn).2 (List.mem_toFinset.mp hmemW)
  by_cases hlib : lib ∈ A
  · rw [Finset.insert_eq_self.mpr hlib]
    have i2 : ((N ∪ (S ∪ W1)) \ A).card ≤ ((N ∪ insert lib W1) \ A).card := by
      apply Finset.card_le_card
      apply Finset.sdiff_subset_sdiff _ le_rfl
      intro x hx
      simp only [Finset.mem_union] at hx ⊢
      rcases hx with hx | hx | hx
      · exact Or.inl hx
      · exact Or.inl (hSN x hx)
      · exact Or.inr (Finset.mem_insert_of_mem hx)
    have hdisj : Disjoint (N \ (A ∪ (S ∪ W1))) S := by
      rw [Finset.disjoint_right]
      intro a ha hmem
      rw [Finset.mem_sdiff] at hmem
      exact hmem.2 (Finset.mem_union_right _ (Finset.mem_union_left _ ha))
    have i3 : (N \ (A ∪ (S ∪ W1))).card + S.card ≤
        (N \ (A ∪ insert lib W1)).card := by
      rw [← Finset.card_union_of_disjoint hdisj]
      apply Finset.card_le_card
      intro x hx
      rcases Finset.mem_union.mp hx with hx | hx
      · rw [Finset.mem_sdiff] at hx ⊢
        refine ⟨hx.1, fun hc => ?_⟩
        rcases Finset.mem_union.mp hc with hc | hc
        · exact hx.2 (Finset.mem_union_left _ hc)
        · rcases Finset.mem_insert.mp hc with rfl | hc
          · exact hx.2 (Finset.mem_union_left _ hlib)
          · exact hx.2
              (Finset.mem_union_right _ (Finset.mem_union_right _ hc))
      · rw [Finset.mem_sdiff]
        refine ⟨hSN x hx, fun hc => ?_⟩
        rcases Finset.mem_union.mp hc with hc | hc
        · exact hSA x hx hc
        · rcases Finset.mem_insert.mp hc with rfl | hc
          · exact hSA x hx hlib
          · exact hSW x hx hc
    omega
  · have i2 : ((N ∪ (S ∪ W1)) \ insert lib A).card + 1 ≤
        ((N ∪ insert lib W1) \ A).card := by
      have hdisj : Disjoint ((N ∪ (S ∪ W1)) \ insert lib A) {lib} := by
        rw [Finset.disjoint_right]
        intro a ha hmem
        rw [Finset.mem_singleton] at ha
        subst ha
        rw [Finset.mem_sdiff] at hmem
        exact hmem.2 (Finset.mem_insert_self _ _)
      rw [← Finset.card_singleton lib, ← Finset.card_union_of_disjoint hdisj]
      apply Finset.card_le_card
      intro x hx
      rcases Finset.mem_union.mp hx with hx | hx
      · rw [Finset.mem_sdiff] at hx ⊢
        refine ⟨?_, fun hc => hx.2 (Finset.mem_insert_of_mem hc)⟩
        rcases Finset.mem_union.mp hx.1 with h | h
        · exact Finset.mem_union_left _ h
        · rcases Finset.mem_union.mp h with h | h
          · exact Finset.mem_union_left _ (hSN x h)
          · exact Finset.mem_union_right _ (Finset.mem_insert_of_mem h)
      · rw [Finset.mem_singleton] at hx
        subst hx
        rw [Finset.mem_sdiff]
        exact ⟨Finset.mem_union_right _ (Finset.mem_insert_self _ _), hlib⟩
    have hdisj3 : Disjoint (N \ (insert lib A ∪ (S ∪ W1))) (S \ {lib}) := by
      rw [Finset.disjoint_right]
      intro a ha hmem
      rw [Finset.mem_sdiff] at ha hmem
      exact hmem.2
        (Finset.mem_union_right _ (Finset.mem_union_left _ ha.1))
    have i3 : (N \ (insert lib A ∪ (S ∪ W1))).card + (S \ {lib}).card ≤
        (N \ (A ∪ insert lib W1)).card := by
      rw [← Finset.card_union_of_disjoint hdisj3]
      apply Finset.card_le_card
      intro x hx
      rcases Finset.mem_union.mp hx with hx | hx
      · rw [Finset.mem_sdiff] at hx ⊢
        refine ⟨hx.1, fun hc => ?_⟩
        rcases Finset.mem_union.mp hc with hc | hc
        · exact hx.2
            (Finset.mem_union_left _ (Finset.mem_insert_of_mem hc))
        · rcases Finset.mem_insert.mp hc with rfl | hc
          · exact hx.2 (Finset.mem_union_left _ (Finset.mem_insert_self _ _))
          · exact hx.2
              (Finset.mem_union_right _ (Finset.mem_union_right _ hc))
      · rw [Finset.mem_sdiff] at hx
        rw [Finset.mem_sdiff]
        have hxS := hx.1
        refine ⟨hSN x hxS, fun hc => ?_⟩
        rcases Finset.mem_union.mp hc with hc | hc
        · exact hSA x hxS hc
        · rcases Finset.mem_insert.mp hc with rfl | hc
          · exact hx.2 (Finset.mem_singleton_self _)
          · exact hSW x hxS hc
    have i4 : S.card ≤ (S \ {lib}).card + 1 := by
      have hsub : S ⊆ (S \ {lib}) ∪ {lib} := by
        intro x hx
        by_cases hxl : x = lib
        · subst hxl
          exact Finset.mem_union_right _ (Finset.mem_singleton_self _)
        · exact Finset.mem_union_left _
            (Finset.mem_sdiff.mpr ⟨hx, by simp [hxl]⟩)
      calc S.card ≤ ((S \ {lib}) ∪ {lib}).card := Finset.card_le_card hsub
        _ ≤ (S \ {lib}).card + 1 := by
              have := Finset.card_union_le (S \ {lib}) ({lib} : Finset LibraryName)
              simpa using this
    omega

theorem findFirst_isSome (fuel : Nat) :
    ∀ (index : LibraryIndex) (mapped : Configuration) (avail : Available)
      (rest : List LibraryName), phi index mapped rest < fuel →
      (findFirst index fuel mapped avail rest).isSome = true := by
  induction fuel with
  | zero =>
    intro index mapped avail rest h
    exact absurd h (Nat.not_lt_zero _)
  | succ fuel ih =>
    intro index mapped avail rest h
    cases rest with
    | nil => simp [findFirst]
    | cons lib rest =>
      cases hc : candidates index avail lib with
      | nil => simp [findFirst, hc]
      | cons ver vtail =>
        cases hcf : conflictOf mapped
            (LibraryIndex.Dependencies index lib ver) with
        | some dvl => simp [findFirst, hc, hcf]
        | none =>
          cases hemp : Available.Empty (aerase lib (Available.Refine avail
              (pruneMapped mapped
                (LibraryIndex.Dependencies index lib ver)))) with
          | cons s st => simp [findFirst, hc, hcf, hemp]
          | nil =>
            have hstep : findFirst index (fuel + 1) mapped avail (lib :: rest) =
                findFirst index fuel
                  (ainsert lib ver (Configuration.Clone mapped))
                  (aerase lib (Available.Refine avail
                    (pruneMapped mapped
                      (LibraryIndex.Dependencies index lib ver))))
                  (newLibs rest (pruneMapped mapped
                    (LibraryIndex.Dependencies index lib ver)) ++ rest) := by
              simp [findFirst, hc, hcf, hemp]
            rw [hstep]
            apply ih
            have hclone : Configuration.Clone mapped = mapped := rfl
            rw [hclone]
            have hdec := phi_decrease index mapped lib ver rest
            omega

/-- Claim C8 (status: confirmed).  `Resolve` always terminates with an
answer: the fuel `fuelBound` — one step per initial worklist entry plus two
per distinct library name in play — is never exhausted, because every
recursive call of `findFirst` strictly decreases the measure `phi`.  The
decrease argument formalizes the worklist discipline the claim describes:
names already in the assignment are deleted from the dependency map before
new work is scheduled, so a name is appended to the worklist at most once
before and at most once while being assigned, bounding the recursion depth
linearly in the number of distinct library names discovered. -/
theorem claim_C8 (index : LibraryIndex) (libraries : List LibraryName) :
    (LibraryIndex.Resolve index libraries).isSome = true := by
  unfold LibraryIndex.Resolve
  apply findFirst_isSome
  have hkeys : keysF ([] : Configuration) = ∅ := rfl
  have hcard : (namesF index ∪ libraries.toFinset).card =
      (List.dedup (indexNames index ++ libraries)).length := by
    unfold namesF
    rw [← List.toFinset_append, List.card_toFinset]
  have h1 : ((namesF index ∪ libraries.toFinset) \ keysF ([] : Configuration)).card =
      (namesF index ∪ libraries.toFinset).card := by
    rw [hkeys, Finset.sdiff_empty]
  have h2 : (namesF index \ (keysF ([] : Configuration) ∪ libraries.toFinset)).card ≤
      (namesF index ∪ libraries.toFinset).card := by
    apply Finset.card_le_card
    intro x hx
    rw [Finset.mem_sdiff] at hx
    exact Finset.mem_union_left _ hx.1
  unfold phi fuelBound
  omega

-- Frame lemmas for the heap embedding.

theorem frameAbove_self {n : Nat} {h : Heap} (hn : n ≤ h.next) :
    FrameAbove n h h :=
  ⟨hn, fun _ _ => Eq.refl _⟩

theorem frameAbove_trans {n : Nat} {h1 h2 h3 : Heap}
    (a : FrameAbove n h1 h2) (b : FrameAbove n h2 h3) : FrameAbove n h1 h3 :=
  ⟨b.1, fun r hr => (b.2 r hr).trans (a.2 r hr)⟩

theorem alloc_next (h : Heap) (o : HObj) :
    (h.alloc o).1.next = h.next + 1 := rfl

theorem alloc_ref (h : Heap) (o : HObj) : (h.alloc o).2 = h.next := rfl

theorem write_next (h : Heap) (r0 : Nat) (o : HObj) :
    (h.write r0 o).next = h.next := rfl

theorem frameAbove_alloc {n : Nat} {h : Heap} (hn : n ≤ h.next) (o : HObj) :
    FrameAbove n h (h.alloc o).1 := by
  refine ⟨by rw [alloc_next]; omega, fun r hr => ?_⟩
  show (if r = h.next then some o else h.mem r) = h.mem r
  rw [if_neg]
  omega

theorem frameAbove_write {n : Nat} {h : Heap} {r0 : Nat} (hn : n ≤ h.next)
    (hr0 : n ≤ r0) (o : HObj) : FrameAbove n h (h.write r0 o) := by
  refine ⟨by rw [write_next]; exact hn, fun r hr => ?_⟩
  show (if r = r0 then some o else h.mem r) = h.mem r
  rw [if_neg]
  omega

theorem alookup_mem {β : Type} {k : LibraryName} {v : β} :
    ∀ {m : List (LibraryName × β)}, alookup k m = some v → (k, v) ∈ m
  | [], h => by simp [alookup] at h
  | (k', v') :: t, h => by
    by_cases h2 : k' = k
    · subst h2
      unfold alookup at h
      rw [if_pos rfl] at h
      injection h with h
      subst h
      exact List.mem_cons_self _ _
    · simp only [alookup, h2, if_false] at h
      exact List.mem_cons_of_mem _ (alookup_mem h)

theorem mem_ainsert {β : Type} {kv : LibraryName × β} {k : LibraryName}
    {v : β} : ∀ {m : List (LibraryName × β)},
      kv ∈ ainsert k v m → kv = (k, v) ∨ kv ∈ m
  | [], h => by simpa [ainsert] using h
  | (k', v') :: t, h => by
    unfold ainsert at h
    by_cases h2 : k' = k
    · rw [if_pos h2] at h
      rcases List.mem_cons.mp h with h | h
      · exact Or.inl h
      · exact Or.inr (List.mem_cons_of_mem _ h)
    · rw [if_neg h2] at h
      rcases List.mem_cons.mp h with h | h
      · exact Or.inr (by rw [h]; exact List.mem_cons_self _ _)
      · rcases mem_ainsert h with h3 | h3
        · exact Or.inl h3
        · exact Or.inr (List.mem_cons_of_mem _ h3)

theorem mem_write_ne {h : Heap} {r r0 : Nat} (hne : r ≠ r0) (o : HObj) :
    (h.write r0 o).mem r = h.mem r := by
  show (if r = r0 then some o else h.mem r) = h.mem r
  rw [if_neg hne]

theorem readAvail_write_ne {h : Heap} {r r0 : Nat} (hne : r ≠ r0) (o : HObj) :
    (h.write r0 o).readAvail r = h.readAvail r := by
  unfold Heap.readAvail
  rw [mem_write_ne hne]

theorem readAvail_write_vlist (h : Heap) (r0 : Nat) (l : List VPtr) :
    (h.write r0 (HObj.hvlist l)).readAvail r0 = [] := by
  unfold Heap.readAvail
  show (match (if r0 = r0 then some (HObj.hvlist l) else h.mem r0) with
    | some (HObj.havail a) => a
    | _ => ([] : List (LibraryName × Nat))) = []
  rw [if_pos rfl]

theorem readAvail_alloc_ne {h : Heap} {r : Nat} (hne : r ≠ h.next)
    (o : HObj) : (h.alloc o).1.readAvail r = h.readAvail r := by
  unfold Heap.readAvail
  show (match (if r = h.next then some o else h.mem r) with
    | some (HObj.havail a) => a
    | _ => ([] : List (LibraryName × Nat))) = _
  rw [if_neg hne]

theorem NewVersionListH_frame {n : Nat} {h : Heap} (hn : n ≤ h.next) :
    FrameAbove n h (NewVersionListH h).1 ∧ n ≤ (NewVersionListH h).2 :=
  ⟨frameAbove_alloc hn _, hn⟩

theorem IntersectionH_frame {n : Nat} {h : Heap} (hn : n ≤ h.next)
    (r1 r2 : Nat) :
    FrameAbove n h (IntersectionH h r1 r2).1 ∧ n ≤ (IntersectionH h r1 r2).2 :=
  ⟨frameAbove_alloc hn _, hn⟩

theorem CloneConfH_frame {n : Nat} {h : Heap} (hn : n ≤ h.next) (r : Nat) :
    FrameAbove n h (CloneConfH h r).1 ∧ n ≤ (CloneConfH h r).2 :=
  ⟨frameAbove_alloc hn _, hn⟩

theorem foldl_AddH_frame {n vr : Nat} (hvr : n ≤ vr) :
    ∀ (l : List VPtr) {h : Heap}, n ≤ h.next →
      FrameAbove n h (List.foldl (fun hh v => AddH hh vr v) h l)
  | [], _, hn => frameAbove_self hn
  | v :: t, h, hn => by
    simp only [List.foldl_cons]
    have hstep : FrameAbove n h (AddH h vr v) := frameAbove_write hn hvr _
    exact frameAbove_trans hstep (foldl_AddH_frame hvr t hstep.1)

theorem VersionsH_frame {n : Nat} {h : Heap} (hn : n ≤ h.next)
    (index : LibraryIndex) (lib : LibraryName) :
    FrameAbove n h (VersionsH h index lib).1 ∧ n ≤ (VersionsH h index lib).2 := by
  unfold VersionsH
  have h1 := frameAbove_alloc hn (HObj.hvlist [])
  have hvr : n ≤ (NewVersionListH h).2 := hn
  have h2 := foldl_AddH_frame hvr
    (List.dedup (List.map (fun d => d.library.ver)
      (List.filter (fun d => d.library.name == lib) index.libraries))) h1.1
  refine ⟨frameAbove_trans (frameAbove_trans h1 h2) ?_, hn⟩
  exact frameAbove_write h2.1 hvr _

theorem AddH_refs {h : Heap} {vr dr n : Nat} {v : VPtr}
    (hrefs : ∀ kv ∈ h.readAvail dr, n ≤ kv.2) :
    ∀ kv ∈ (AddH h vr v).readAvail dr, n ≤ kv.2 := by
  by_cases hvd : vr = dr
  · subst hvd
    unfold AddH
    rw [readAvail_write_vlist]
    intro kv hkv
    simp at hkv
  · unfold AddH
    rw [readAvail_write_ne (fun hc => hvd hc.symm)]
    exact hrefs

theorem depStepH_frame {lib : LibraryName} {ver : VPtr} {dr n : Nat}
    {h : Heap} {e : dependency} (hn : n ≤ h.next) (hdr : n ≤ dr)
    (hrefs : ∀ kv ∈ h.readAvail dr, n ≤ kv.2) :
    FrameAbove n h (depStepH lib ver dr h e) ∧
      ∀ kv ∈ (depStepH lib ver dr h e).readAvail dr, n ≤ kv.2 := by
  unfold depStepH
  split
  · cases halook : alookup e.dependsOn.name (h.readAvail dr) with
    | some vr =>
      have hvr : n ≤ vr := hrefs _ (alookup_mem halook)
      exact ⟨frameAbove_write hn hvr _, AddH_refs hrefs⟩
    | none =>
      have ha1 : FrameAbove n h (NewVersionListH h).1 :=
        frameAbove_alloc hn (HObj.hvlist [])
      have hvr : n ≤ (NewVersionListH h).2 := hn
      have ha2 : FrameAbove n (NewVersionListH h).1
          ((NewVersionListH h).1.write dr
            (HObj.havail (ainsert e.dependsOn.name (NewVersionListH h).2
              ((NewVersionListH h).1.readAvail dr)))) :=
        frameAbove_write ha1.1 hdr _
      have hread : ((NewVersionListH h).1.write dr
          (HObj.havail (ainsert e.dependsOn.name (NewVersionListH h).2
            ((NewVersionListH h).1.readAvail dr)))).readAvail dr =
          ainsert e.dependsOn.name (NewVersionListH h).2
            ((NewVersionListH h).1.readAvail dr) := by
        unfold Heap.readAvail Heap.write
        show (match (if dr = dr then _ else _) with
          | some (HObj.havail a) => a
          | _ => ([] : List (LibraryName × Nat))) = _
        rw [if_pos rfl]
      have hrefs2 : ∀ kv ∈ ((NewVersionListH h).1.write dr
          (HObj.havail (ainsert e.dependsOn.name (NewVersionListH h).2
            ((NewVersionListH h).1.readAvail dr)))).readAvail dr, n ≤ kv.2 := by
        intro kv hkv
        rw [hread] at hkv
        rcases mem_ainsert hkv with h3 | h3
        · rw [h3]
          exact hvr
        · by_cases hd2 : dr = h.next
          · subst hd2
            have hempty : (NewVersionListH h).1.readAvail h.next = [] := by
              unfold NewVersionListH Heap.alloc Heap.readAvail
              show (match (if h.next = h.next then some (HObj.hvlist [])
                  else h.mem h.next) with
                | some (HObj.havail a) => a
                | _ => ([] : List (LibraryName × Nat))) = _
              rw [if_pos rfl]
            rw [hempty] at h3
            simp at h3
          · have hsame : (NewVersionListH h).1.readAvail dr =
                h.readAvail dr := readAvail_alloc_ne hd2 _
            rw [hsame] at h3
            exact hrefs _ h3
      exact ⟨frameAbove_trans (frameAbove_trans ha1 ha2)
        (frameAbove_write ha2.1 hvr _), AddH_refs hrefs2⟩
  · exact ⟨frameAbove_self hn, hrefs⟩

theorem foldl_depStepH_frame {lib : LibraryName} {ver : VPtr} {dr n : Nat} :
    ∀ (l : List dependency) {h : Heap}, n ≤ h.next → n ≤ dr →
      (∀ kv ∈ h.readAvail dr, n ≤ kv.2) →
      FrameAbove n h (List.foldl (depStepH lib ver dr) h l)
  | [], _, hn, _, _ => frameAbove_self hn
  | e :: t, h, hn, hdr, hrefs => by
    simp only [List.foldl_cons]
    have hstep := @depStepH_frame lib ver dr n h e hn hdr hrefs
    exact frameAbove_trans hstep.1
      (foldl_depStepH_frame t hstep.1.1 hdr hstep.2)

theorem DependenciesH_frame {n : Nat} {h : Heap} (hn : n ≤ h.next)
    (index : LibraryIndex) (lib : LibraryName) (ver : VPtr) :
    FrameAbove n h (DependenciesH h index lib ver).1 ∧
      n ≤ (DependenciesH h index lib ver).2 := by
  unfold DependenciesH
  have ha : FrameAbove n h (h.alloc (HObj.havail [])).1 :=
    frameAbove_alloc hn _
  have hrefs : ∀ kv ∈ (h.alloc (HObj.havail [])).1.readAvail h.next,
      n ≤ kv.2 := by
    intro kv hkv
    have : (h.alloc (HObj.havail [])).1.readAvail h.next = [] := by
      unfold Heap.alloc Heap.readAvail
      show (match (if h.next = h.next then some (HObj.havail [])
          else h.mem h.next) with
        | some (HObj.havail a) => a
        | _ => ([] : List (LibraryName × Nat))) = _
      rw [if_pos rfl]
    rw [this] at hkv
    simp at hkv
  exact ⟨frameAbove_trans ha
    (foldl_depStepH_frame index.libraries ha.1 hn hrefs), hn⟩

theorem foldl_RefineH_frame {sr rr n : Nat} (hrr : n ≤ rr) :
    ∀ (l : List (LibraryName × Nat)) {h : Heap}, n ≤ h.next →
      FrameAbove n h (List.foldl (fun hh kv =>
        match alookup kv.1 (hh.readAvail sr) with
        | none =>
            hh.write rr (HObj.havail (ainsert kv.1 kv.2 (hh.readAvail rr)))
        | some vr2 =>
            let hi := IntersectionH hh kv.2 vr2
            hi.1.write rr
              (HObj.havail (ainsert kv.1 hi.2 (hi.1.readAvail rr)))) h l)
  | [], _, hn => frameAbove_self hn
  | kv :: t, h, hn => by
    simp only [List.foldl_cons]
    have hstep : FrameAbove n h
        (match alookup kv.1 (h.readAvail sr) with
        | none =>
            h.write rr (HObj.havail (ainsert kv.1 kv.2 (h.readAvail rr)))
        | some vr2 =>
            let hi := IntersectionH h kv.2 vr2
            hi.1.write rr
              (HObj.havail (ainsert kv.1 hi.2 (hi.1.readAvail rr)))) := by
      cases halook : alookup kv.1 (h.readAvail sr) with
      | none => exact frameAbove_write hn hrr _
      | some vr2 =>
        have hi := IntersectionH_frame hn kv.2 vr2
        exact frameAbove_trans hi.1 (frameAbove_write hi.1.1 hrr _)
    exact frameAbove_trans hstep (foldl_RefineH_frame hrr t hstep.1)

theorem RefineH_frame {n : Nat} {h : Heap} (hn : n ≤ h.next) (ar sr : Nat) :
    FrameAbove n h (RefineH h ar sr).1 ∧ n ≤ (RefineH h ar sr).2 := by
  unfold RefineH
  have ha : FrameAbove n h (h.alloc (HObj.havail [])).1 :=
    frameAbove_alloc hn _
  exact ⟨frameAbove_trans ha
    (foldl_RefineH_frame hn (h.readAvail ar) ha.1), hn⟩

theorem findFirstH_body_frame (index : LibraryIndex) (fuel : Nat)
    (lib : LibraryName) (rest : List LibraryName) (mr ar : Nat) {n : Nat}
    (g : Heap) (ver : VPtr) (hg : n ≤ g.next)
    (ih : ∀ (h2 : Heap) (mr2 ar2 : Nat) (rest2 : List LibraryName),
      n ≤ h2.next → FrameAbove n h2 (findFirstH index fuel h2 mr2 ar2 rest2).1) :
    FrameAbove n g
      (let hc := CloneConfH g mr
       let hd := DependenciesH hc.1 index lib ver
       match List.find? (fun (kv : LibraryName × Nat) =>
           match alookup kv.1 (hd.1.readConf mr) with
           | some choice =>
               !(VersionList.Contains (hd.1.readVlist kv.2) choice)
           | none => false) (hd.1.readAvail hd.2) with
       | some kv =>
           (hd.1, some (Except.error ("No compatible version of " ++ kv.1)))
       | none =>
         let h4 := hd.1.write hd.2 (HObj.havail (List.filter
           (fun (kv : LibraryName × Nat) =>
             (alookup kv.1 (hd.1.readConf mr)).isNone)
           (hd.1.readAvail hd.2)))
         let newlibs := List.filter
           (fun n1 => !(List.any rest fun n2 => n1 == n2))
           (List.map Prod.fst (h4.readAvail hd.2))
         let hi := RefineH h4 ar hd.2
         let h6 := hi.1.write hi.2
           (HObj.havail (aerase lib (hi.1.readAvail hi.2)))
         match EmptyH h6 hi.2 with
         | [] =>
             let h7 := h6.write hc.2
               (HObj.hconf (ainsert lib ver (h6.readConf hc.2)))
             findFirstH index fuel h7 hc.2 hi.2 (newlibs ++ rest)
         | starved =>
             (h6, some (Except.error
               ("No compatible versions of: " ++ fmtNames starved)))).1 := by
  have hc : FrameAbove n g (CloneConfH g mr).1 ∧ n ≤ (CloneConfH g mr).2 :=
    CloneConfH_frame hg mr
  have hd := DependenciesH_frame hc.1.1 index lib ver
  dsimp only
  set C := CloneConfH g mr with hCeq
  set D := DependenciesH C.1 index lib ver with hDeq
  set H4 := D.1.write D.2 (HObj.havail (List.filter
    (fun kv => (alookup kv.1 (D.1.readConf mr)).isNone)
    (D.1.readAvail D.2))) with hH4eq
  set I := RefineH H4 ar D.2 with hIeq
  set H6 := I.1.write I.2 (HObj.havail (aerase lib (I.1.readAvail I.2)))
    with hH6eq
  set H7 := H6.write C.2 (HObj.hconf (ainsert lib ver (H6.readConf C.2)))
    with hH7eq
  have h4f : FrameAbove n D.1 H4 := frameAbove_write hd.1.1 hd.2 _
  have hif : FrameAbove n H4 I.1 ∧ n ≤ I.2 := RefineH_frame h4f.1 ar D.2
  have h6f : FrameAbove n I.1 H6 := frameAbove_write hif.1.1 hif.2 _
  have h7f : FrameAbove n H6 H7 := frameAbove_write h6f.1 hc.2 _
  have hchain : FrameAbove n g H6 :=
    frameAbove_trans hc.1 (frameAbove_trans hd.1
      (frameAbove_trans h4f (frameAbove_trans hif.1 h6f)))
  split
  · exact frameAbove_trans hc.1 hd.1
  · split
    · exact frameAbove_trans hchain
        (frameAbove_trans h7f (ih H7 C.2 I.2 _ h7f.1))
    · exact hchain

theorem findFirstH_frame (fuel : Nat) :
    ∀ (index : LibraryIndex) (h : Heap) (mr ar : Nat)
      (rest : List LibraryName) {n : Nat}, n ≤ h.next →
      FrameAbove n h (findFirstH index fuel h mr ar rest).1 := by
  induction fuel with
  | zero =>
    intro index h mr ar rest n hn
    exact frameAbove_self hn
  | succ fuel ih =>
    intro index h mr ar rest n hn
    cases rest with
    | nil => exact frameAbove_self hn
    | cons lib rest =>
      cases halook : alookup lib (h.readAvail ar) with
      | some vr =>
        simp only [findFirstH, halook]
        cases hvl : h.readVlist vr with
        | nil => exact frameAbove_self hn
        | cons ver vtail =>
          exact findFirstH_body_frame index fuel lib rest mr ar h ver hn
            (fun h2 mr2 ar2 rest2 hh => ih index h2 mr2 ar2 rest2 hh)
      | none =>
        simp only [findFirstH, halook]
        have hv := VersionsH_frame hn index lib
        cases hvl : (VersionsH h index lib).1.readVlist
            (VersionsH h index lib).2 with
        | nil => exact hv.1
        | cons ver vtail =>
          exact frameAbove_trans hv.1
            (findFirstH_body_frame index fuel lib rest mr ar
              (VersionsH h index lib).1 ver hv.1.1
              (fun h2 mr2 ar2 rest2 hh => ih index h2 mr2 ar2 rest2 hh))

/-- Claim C9 (status: confirmed).  In the heap embedding of `findFirst` —
where `mapped` and `avail` are pointers `mr` and `ar` into a store of
configuration maps, constraint maps and version lists, and every Go map or
list mutation is an explicit store write — no object that existed when the
call began is ever modified: whatever the search does, on return (success,
failure, or fuel exhaustion) every address allocated before the call holds
exactly its original object, so the caller's assignment, constraint store
and graph (the index, which is read-only by construction) are unchanged.
This holds because `findFirst` writes only to objects it allocates itself:
the clone `config`, the fresh `depvers` and its version lists, and the
`Refine` result `intersection`. -/
theorem claim_C9 (index : LibraryIndex) (fuel : Nat) (h : Heap) (mr ar : Nat)
    (rest : List LibraryName) (r : Nat) (hr : r < h.next) :
    (findFirstH index fuel h mr ar rest).1.mem r = h.mem r :=
  (findFirstH_frame fuel index h mr ar rest (le_refl h.next)).2 r hr

/-- Claim C9 witness: a concrete run over the caller's configuration at
address 0 and constraint store at address 1 leaves address 0 exactly as it
was. -/
theorem claim_C9_witness :
    0 < exHeapC9.next ∧
    (findFirstH ⟨[]⟩ 3 exHeapC9 0 1 ["A"]).1.mem 0 = exHeapC9.mem 0 :=
  ⟨by decide, claim_C9 ⟨[]⟩ 3 exHeapC9 0 1 ["A"] 0 (by decide)⟩
